import Mathlib

/-!
Shallow embedding of the query-resolution core of the `wtg` CLI
(crates/wtg/src), with theorems checking the natural-language
specification against the code.

Conventions of the embedding:
  * Rust `Option<T>`/`Result<T, WtgError>` become `Option`/`Except WtgErr`.
  * `DateTime<Utc>` timestamps become `Int` (seconds since epoch), matching
    the `i64` second counts the code compares.
  * External collaborators (the git object database, the GitHub REST API,
    subprocess calls) are modelled as explicit function-valued fields of
    environment structures; the repository's own logic is translated
    line by line.
  * The regex character class `\d` is modelled as ASCII digits.
-/

namespace Wtg

/-- Error taxonomy of `WtgError` (crates/wtg/src/error.rs together with the
variants constructed by parse_input.rs and backend/mod.rs). -/
inductive WtgErr where
  | notInGitRepo : WtgErr
  | notFound : String → WtgErr
  | unsupported : String → WtgErr
  | ghRateLimit : WtgErr
  | ghSaml : WtgErr
  | timeout : WtgErr
  | io : WtgErr
  | git : WtgErr
  | emptyInput : WtgErr
  | securityRejection : String → WtgErr
  | notGitHubUrl : String → WtgErr
  | malformedGitHubUrl : String → WtgErr
  deriving Repr, DecidableEq

/-- Repository coordinates `GhRepoInfo { owner, repo }` (github.rs). -/
structure GhRepoInfo where
  owner : String
  repo : String
  deriving Repr, DecidableEq

/-- Semantic-version record `SemverInfo` (git.rs). -/
structure SemverInfo where
  major : Nat
  minor : Nat
  patch : Option Nat
  build : Option Nat
  pre_release : Option String
  build_metadata : Option String
  deriving Repr, DecidableEq

/-- Tag record `TagInfo` (git.rs); `created_at` is the tag commit's
timestamp in seconds. -/
structure TagInfo where
  name : String
  commit_hash : String
  semver_info : Option SemverInfo
  created_at : Int
  is_release : Bool
  release_name : Option String
  release_url : Option String
  published_at : Option Int
  deriving Repr, DecidableEq

/-- `TagInfo::is_semver` (git.rs). -/
def TagInfo.is_semver (t : TagInfo) : Bool :=
  t.semver_info.isSome

/-- Commit record `CommitInfo` (git.rs). -/
structure CommitInfo where
  hash : String
  short_hash : String
  message : String
  message_lines : Nat
  commit_url : Option String
  author_name : String
  author_email : Option String
  author_login : Option String
  author_url : Option String
  date : Int
  deriving Repr, DecidableEq

/-! ### Semver recognizer (git.rs `SEMVER_REGEX` / `parse_semver`)

The regex is
`^(?:[a-z]+-)?v?(\d+)\.(\d+)(?:\.(\d+))?(?:\.(\d+))?`
`(?:(?:-([a-zA-Z0-9.-]+))|(?:([a-z]+)(\d+)))?(?:\+(.+))?$`.
The recursive-descent translation below is deterministic because at every
optional group the alternatives are mutually exclusive on their first
character, so the regex engine's backtracking never changes the outcome. -/

def isLowerCh (c : Char) : Bool := 'a' ≤ c && c ≤ 'z'

def isDigitCh (c : Char) : Bool := '0' ≤ c && c ≤ '9'

def isDashClassCh (c : Char) : Bool :=
  isLowerCh c || ('A' ≤ c && c ≤ 'Z') || isDigitCh c || c = '.' || c = '-'

/-- Numeric value of a digit run. -/
def digitsToNat (ds : List Char) : Nat :=
  ds.foldl (fun a c => a * 10 + (c.toNat - '0'.toNat)) 0

/-- Rust `str::parse::<u32>().ok()` on a nonempty digit run. -/
def parseU32 (ds : List Char) : Option Nat :=
  let n := digitsToNat ds
  if n < 4294967296 then some n else none

/-- Consume the optional `(?:[a-z]+-)?` prefix group: the maximal lowercase
run is taken only when a dash immediately follows (no other split of the
run can be followed by a dash). -/
def semverDropPfx (cs : List Char) : List Char :=
  let run := cs.takeWhile isLowerCh
  let rest := cs.drop run.length
  if run ≠ [] ∧ rest.head? = some '-' then rest.drop 1 else cs

/-- Parse the final `(?:\+(.+))?$` group; `.` does not match a newline. -/
def semverMeta : List Char → Option (Option String)
  | [] => some none
  | c :: ms =>
      if c = '+' then
        if ms ≠ [] ∧ ¬ ms.contains '\n' then some (some (⟨ms⟩ : String)) else none
      else none

/-- Parse the pre-release and build-metadata tail of the regex, after the
numeric version core has been consumed. -/
def semverTail (cs : List Char) : Option (Option String × Option String) :=
  match cs with
  | [] => some (none, none)
  | c :: rest =>
      if c = '-' then
        let run := rest.takeWhile isDashClassCh
        if run = [] then none
        else (semverMeta (rest.drop run.length)).map fun m =>
          (some (⟨run⟩ : String), m)
      else if isLowerCh c then
        let letters := (c :: rest).takeWhile isLowerCh
        let after := (c :: rest).drop letters.length
        let digits := after.takeWhile isDigitCh
        if digits = [] then none
        else (semverMeta (after.drop digits.length)).map fun m =>
          (some ((⟨letters⟩ : String) ++ (⟨digits⟩ : String)), m)
      else (semverMeta (c :: rest)).map fun m => (none, m)

/-- Consume `(?:\.(\d+))?`: a dot followed by a digit run; returns the run
(if the group matched) and the remaining input. -/
def semverDotNum (cs : List Char) : Option (List Char) × List Char :=
  match cs with
  | [] => (none, [])
  | c :: rest =>
      if c = '.' then
        let ds := rest.takeWhile isDigitCh
        if ds = [] then (none, c :: rest) else (some ds, rest.drop ds.length)
      else (none, c :: rest)

/-- `parse_semver` (git.rs): recursive-descent equivalent of the anchored
`SEMVER_REGEX` match followed by the capture-group post-processing.
Major/minor use `parse::<u32>()?` (overflow kills the whole parse) while
patch/build use `and_then(.. .ok())` (overflow only drops the field). -/
def parseSemver (tag : String) : Option SemverInfo := do
  let cs := semverDropPfx tag.data
  let cs := if cs.head? = some 'v' then cs.drop 1 else cs
  let majDs := cs.takeWhile isDigitCh
  if majDs = [] then none else
  let cs := cs.drop majDs.length
  match cs with
  | '.' :: cs =>
    let minDs := cs.takeWhile isDigitCh
    if minDs = [] then none else
    let cs := cs.drop minDs.length
    let (patchDs, cs) := semverDotNum cs
    let (buildDs, cs) := semverDotNum cs
    let (pre, meta) ← semverTail cs
    let major ← parseU32 majDs
    let minor ← parseU32 minDs
    some { major := major, minor := minor,
           patch := patchDs.bind parseU32, build := buildDs.bind parseU32,
           pre_release := pre, build_metadata := meta }
  | _ => none

/-! ### Local tag selection (git.rs / backend/git_backend.rs)

The git object database is abstracted by `GitRepoModel`: the tag list (in
`tag_names` order, already peeled to commits), commit timestamps, the
ancestry oracle `graph_descendant_of`, and the partial success of
`Oid::from_str` / `Repository::find_commit`. -/

structure GitRepoModel where
  /-- Tag refs as (name, peeled commit oid), in enumeration order. -/
  tags : List (String × String)
  /-- `commit.time().seconds()` for each commit oid. -/
  commitTime : String → Int
  /-- `repo.graph_descendant_of(descendant, ancestor).unwrap_or(false)`. -/
  descendantOf : String → String → Bool
  /-- Whether `Oid::from_str(hash)` succeeds. -/
  isValidOid : String → Bool
  /-- Whether `repo.find_commit(oid)` succeeds. -/
  hasCommit : String → Bool

/-- The `TagInfo` pushed by `GitRepo::find_tags_containing_commit` for a
tag ref `(name, oid)` (git-only, so `is_release: false`). -/
def mkContainingTag (m : GitRepoModel) (pr : String × String) : TagInfo :=
  { name := pr.1, commit_hash := pr.2, semver_info := parseSemver pr.1,
    created_at := m.commitTime pr.2, is_release := false,
    release_name := none, release_url := none, published_at := none }

/-- `GitRepo::find_tags_containing_commit` (git.rs): timestamp pre-filter,
then pointing-to or ancestry check; `None` when nothing qualifies. -/
def findTagsContainingCommit (m : GitRepoModel) (commitOid : String) :
    Option (List TagInfo) :=
  if ¬ m.hasCommit commitOid then none
  else
    let targetTs := m.commitTime commitOid
    let containing := m.tags.filterMap fun pr =>
      if m.commitTime pr.2 < targetTs then none
      else if pr.2 = commitOid ∨ m.descendantOf pr.2 commitOid then
        some (mkContainingTag m pr)
      else none
    if containing = [] then none else some containing

/-- `GitRepo::tags_containing_commit` (git.rs): `Oid::from_str` guard, then
`find_tags_containing_commit(..).unwrap_or_default()`. -/
def tagsContainingCommit (m : GitRepoModel) (hash : String) : List TagInfo :=
  if ¬ m.isValidOid hash then []
  else (findTagsContainingCommit m hash).getD []

/-- `GitRepo::get_commit_timestamp` (git.rs): timestamp, or 0 when the oid
fails to parse or the commit is absent. -/
def getCommitTimestamp (m : GitRepoModel) (hash : String) : Int :=
  if m.isValidOid hash ∧ m.hasCommit hash then m.commitTime hash else 0

/-- Lookup in the timestamp map with the `unwrap_or(i64::MAX)` default
(backend/git_backend.rs `pick_best_tag`). -/
def tsLookup (ts : List (String × Int)) (h : String) : Int :=
  ((ts.find? fun p => p.1 = h).map (·.2)).getD 9223372036854775807

/-- Tail of Rust `Iterator::min_by_key` (first of equally-minimal wins,
because only a strictly smaller key replaces the running best). -/
def minByKeyAux (key : TagInfo → Int) (best : TagInfo) :
    List TagInfo → TagInfo
  | [] => best
  | t :: ts => minByKeyAux key (if key t < key best then t else best) ts

/-- Rust `Iterator::min_by_key` over a list of tags. -/
def minByKey (key : TagInfo → Int) : List TagInfo → Option TagInfo
  | [] => none
  | t :: ts => some (minByKeyAux key t ts)

/-- `select_with_pred` (backend/git_backend.rs): filter by the predicate,
then minimize the mapped commit timestamp. -/
def selectWithPred (candidates : List TagInfo) (timestamps : List (String × Int))
    (p : TagInfo → Bool) : Option TagInfo :=
  minByKey (fun t => tsLookup timestamps t.commit_hash) (candidates.filter p)

/-- `GitBackend::pick_best_tag`: released semver > unreleased semver >
released non-semver > unreleased non-semver. -/
def pickBestTag (candidates : List TagInfo) (timestamps : List (String × Int)) :
    Option TagInfo :=
  (selectWithPred candidates timestamps fun t => t.is_release && t.is_semver).orElse fun _ =>
  (selectWithPred candidates timestamps fun t => !t.is_release && t.is_semver).orElse fun _ =>
  (selectWithPred candidates timestamps fun t => t.is_release && !t.is_semver).orElse fun _ =>
  selectWithPred candidates timestamps fun t => !t.is_release && !t.is_semver

/-- `GitBackend::find_best_tag_for_commit`: collect containing tags, build
the timestamp map, pick the best tag. -/
def findBestTagForCommit (m : GitRepoModel) (commitHash : String) :
    Option TagInfo :=
  let candidates := tagsContainingCommit m commitHash
  if candidates = [] then none
  else
    let timestamps := candidates.map fun t =>
      (t.commit_hash, getCommitTimestamp m t.commit_hash)
    pickBestTag candidates timestamps

/-- `GitBackend::find_release_for_commit`: delegates to
`find_best_tag_for_commit`, ignoring the `_commit_date` argument. -/
def gitBackendFindReleaseForCommit (m : GitRepoModel) (commitHash : String)
    (_commitDate : Option Int) : Option TagInfo :=
  findBestTagForCommit m commitHash

/-- Priority tier of a tag in `pick_best_tag`'s strict order (0 highest). -/
def tagTier (t : TagInfo) : Nat :=
  match t.is_release, t.is_semver with
  | true, true => 0
  | false, true => 1
  | true, false => 2
  | false, false => 3

lemma minByKeyAux_mem (key : TagInfo → Int) (best : TagInfo) :
    ∀ ts : List TagInfo, minByKeyAux key best ts = best ∨ minByKeyAux key best ts ∈ ts := by
  intro ts
  induction ts generalizing best with
  | nil => exact Or.inl rfl
  | cons t ts ih =>
    simp only [minByKeyAux]
    rcases ih (if key t < key best then t else best) with h | h
    · rw [h]
      split
      · exact Or.inr (List.mem_cons_self _ _)
      · exact Or.inl rfl
    · exact Or.inr (List.mem_cons_of_mem _ h)

lemma minByKeyAux_le (key : TagInfo → Int) (best : TagInfo) :
    ∀ ts : List TagInfo, key (minByKeyAux key best ts) ≤ key best ∧
      ∀ u ∈ ts, key (minByKeyAux key best ts) ≤ key u := by
  intro ts
  induction ts generalizing best with
  | nil => exact ⟨le_refl _, by simp⟩
  | cons t ts ih =>
    simp only [minByKeyAux]
    obtain ⟨h1, h2⟩ := ih (if key t < key best then t else best)
    have hb : key (if key t < key best then t else best) ≤ key best := by
      split
      · exact le_of_lt (by assumption)
      · exact le_refl _
    have ht : key (if key t < key best then t else best) ≤ key t := by
      split
      · exact le_refl _
      · exact le_of_not_lt (by assumption)
    refine ⟨le_trans h1 hb, ?_⟩
    intro u hu
    rcases List.mem_cons.mp hu with rfl | hu
    · exact le_trans h1 ht
    · exact h2 u hu

lemma minByKey_eq_none (key : TagInfo → Int) (l : List TagInfo) :
    minByKey key l = none ↔ l = [] := by
  cases l <;> simp [minByKey]

lemma minByKey_spec (key : TagInfo → Int) (l : List TagInfo) (t : TagInfo)
    (h : minByKey key l = some t) : t ∈ l ∧ ∀ u ∈ l, key t ≤ key u := by
  cases l with
  | nil => simp [minByKey] at h
  | cons x xs =>
    simp only [minByKey, Option.some.injEq] at h
    subst h
    constructor
    · rcases minByKeyAux_mem key x xs with h | h
      · rw [h]; exact List.mem_cons_self _ _
      · exact List.mem_cons_of_mem _ h
    · intro u hu
      obtain ⟨h1, h2⟩ := minByKeyAux_le key x xs
      rcases List.mem_cons.mp hu with rfl | hu
      · exact h1
      · exact h2 u hu

lemma selectWithPred_eq_none (c : List TagInfo) (ts : List (String × Int))
    (p : TagInfo → Bool) :
    selectWithPred c ts p = none ↔ ∀ u ∈ c, p u = false := by
  rw [selectWithPred, minByKey_eq_none, List.filter_eq_nil_iff]
  simp

lemma selectWithPred_spec (c : List TagInfo) (ts : List (String × Int))
    (p : TagInfo → Bool) (t : TagInfo) (h : selectWithPred c ts p = some t) :
    t ∈ c ∧ p t = true ∧ ∀ u ∈ c, p u = true →
      tsLookup ts t.commit_hash ≤ tsLookup ts u.commit_hash := by
  obtain ⟨hmem, hmin⟩ := minByKey_spec _ _ _ h
  obtain ⟨hc, hp⟩ := List.mem_filter.mp hmem
  exact ⟨hc, hp, fun u hu hpu => hmin u (List.mem_filter.mpr ⟨hu, hpu⟩)⟩

lemma tsLookup_map_eq (f : String → Int) (c : List TagInfo) (h : String)
    (hmem : ∃ t ∈ c, t.commit_hash = h) :
    tsLookup (c.map fun t => (t.commit_hash, f t.commit_hash)) h = f h := by
  induction c with
  | nil => simp at hmem
  | cons x xs ih =>
    simp only [List.map_cons, tsLookup, List.find?_cons]
    by_cases hx : x.commit_hash = h
    · simp [hx]
    · have : (decide (x.commit_hash = h)) = false := by simp [hx]
      rw [this]
      obtain ⟨t, hmt, hth⟩ := hmem
      rcases List.mem_cons.mp hmt with rfl | hmt
      · exact absurd hth hx
      · exact ih ⟨t, hmt, hth⟩

lemma tagTier_cases (t : TagInfo) :
    ((t.is_release && t.is_semver) = true ↔ tagTier t = 0) ∧
    ((!t.is_release && t.is_semver) = true ↔ tagTier t = 1) ∧
    ((t.is_release && !t.is_semver) = true ↔ tagTier t = 2) ∧
    ((!t.is_release && !t.is_semver) = true ↔ tagTier t = 3) := by
  cases hr : t.is_release <;> cases hs : t.is_semver <;>
    simp [tagTier, hr, hs]

lemma tagsContainingCommit_eq (m : GitRepoModel) (h : String)
    (hv : m.isValidOid h = true) (hc : m.hasCommit h = true) :
    tagsContainingCommit m h = m.tags.filterMap fun pr =>
      if m.commitTime pr.2 < m.commitTime h then none
      else if pr.2 = h ∨ m.descendantOf pr.2 h then some (mkContainingTag m pr)
      else none := by
  unfold tagsContainingCommit findTagsContainingCommit
  simp only [hv, hc, Bool.true_eq_false, not_false_eq_true, if_false, if_true,
    Bool.not_true, ite_not]
  split
  · rename_i heq
    simp [heq]
  · simp

lemma mem_tagsContainingCommit (m : GitRepoModel) (h : String) (t : TagInfo) :
    t ∈ tagsContainingCommit m h ↔
      (m.isValidOid h = true ∧ m.hasCommit h = true ∧ ∃ pr ∈ m.tags,
        t = mkContainingTag m pr ∧ m.commitTime h ≤ m.commitTime pr.2 ∧
        (pr.2 = h ∨ m.descendantOf pr.2 h = true)) := by
  by_cases hv : m.isValidOid h = true
  · by_cases hc : m.hasCommit h = true
    · rw [tagsContainingCommit_eq m h hv hc, List.mem_filterMap]
      constructor
      · rintro ⟨pr, hpr, hf⟩
        refine ⟨hv, hc, pr, hpr, ?_⟩
        by_cases h1 : m.commitTime pr.2 < m.commitTime h
        · simp [h1] at hf
        · by_cases h2 : pr.2 = h ∨ m.descendantOf pr.2 h = true
          · simp only [h1, if_false, h2, if_true, Option.some.injEq] at hf
            exact ⟨hf.symm, le_of_not_lt h1, h2⟩
          · simp [h1, h2] at hf
      · rintro ⟨-, -, pr, hpr, rfl, hle, hcont⟩
        exact ⟨pr, hpr, by simp [not_lt_of_le hle, hcont]⟩
    · simp only [tagsContainingCommit, findTagsContainingCommit]
      simp [hc]
  · simp only [tagsContainingCommit]
    simp [hv]

lemma pickBestTag_ne_none (c : List TagInfo) (ts : List (String × Int))
    (hne : c ≠ []) : pickBestTag c ts ≠ none := by
  intro hnone
  obtain ⟨t, ht⟩ := List.exists_mem_of_ne_nil c hne
  unfold pickBestTag at hnone
  cases h0 : selectWithPred c ts (fun t => t.is_release && t.is_semver) with
  | some v => simp [h0, Option.orElse] at hnone
  | none =>
  cases h1 : selectWithPred c ts (fun t => !t.is_release && t.is_semver) with
  | some v => simp [h0, h1, Option.orElse] at hnone
  | none =>
  cases h2 : selectWithPred c ts (fun t => t.is_release && !t.is_semver) with
  | some v => simp [h0, h1, h2, Option.orElse] at hnone
  | none =>
  cases h3 : selectWithPred c ts (fun t => !t.is_release && !t.is_semver) with
  | some v => simp [h0, h1, h2, h3, Option.orElse] at hnone
  | none =>
    have p0 := (selectWithPred_eq_none c ts _).mp h0 t ht
    have p1 := (selectWithPred_eq_none c ts _).mp h1 t ht
    have p2 := (selectWithPred_eq_none c ts _).mp h2 t ht
    have p3 := (selectWithPred_eq_none c ts _).mp h3 t ht
    cases hr : t.is_release <;> cases hs : t.is_semver <;>
      simp [hr, hs] at p0 p1 p2 p3

lemma tagTier_ge_one (u : TagInfo)
    (h0 : (u.is_release && u.is_semver) = false) : 1 ≤ tagTier u := by
  cases hr : u.is_release <;> cases hs : u.is_semver <;> simp_all [tagTier]

lemma tagTier_ge_two (u : TagInfo)
    (h0 : (u.is_release && u.is_semver) = false)
    (h1 : (!u.is_release && u.is_semver) = false) : 2 ≤ tagTier u := by
  cases hr : u.is_release <;> cases hs : u.is_semver <;> simp_all [tagTier]

lemma tagTier_ge_three (u : TagInfo)
    (h0 : (u.is_release && u.is_semver) = false)
    (h1 : (!u.is_release && u.is_semver) = false)
    (h2 : (u.is_release && !u.is_semver) = false) : 3 ≤ tagTier u := by
  cases hr : u.is_release <;> cases hs : u.is_semver <;> simp_all [tagTier]

lemma tagTier_le_three (u : TagInfo) : tagTier u ≤ 3 := by
  cases hr : u.is_release <;> cases hs : u.is_semver <;> simp [tagTier, hr, hs]

/-- The four-way `or_else` chain in `pick_best_tag`, unpacked: the result
comes from the first tier whose selection is nonempty. -/
lemma pickBestTag_spec (c : List TagInfo) (ts : List (String × Int)) (t : TagInfo)
    (h : pickBestTag c ts = some t) :
    t ∈ c ∧ (∀ u ∈ c, tagTier t ≤ tagTier u) ∧
      (∀ u ∈ c, tagTier u = tagTier t →
        tsLookup ts t.commit_hash ≤ tsLookup ts u.commit_hash) := by
  unfold pickBestTag at h
  cases h0 : selectWithPred c ts (fun t => t.is_release && t.is_semver) with
  | some v =>
    rw [h0] at h
    simp only [Option.orElse, Option.some.injEq] at h
    rw [h] at h0
    obtain ⟨hm, hp, hmin⟩ := selectWithPred_spec _ _ _ _ h0
    have ht0 : tagTier t = 0 := (tagTier_cases t).1.mp hp
    refine ⟨hm, fun u _ => by omega, fun u hu htu => ?_⟩
    exact hmin u hu ((tagTier_cases u).1.mpr (by omega))
  | none =>
  rw [h0] at h
  simp only [Option.orElse] at h
  have hall0 := (selectWithPred_eq_none c ts _).mp h0
  cases h1 : selectWithPred c ts (fun t => !t.is_release && t.is_semver) with
  | some v =>
    rw [h1] at h
    simp only [Option.orElse, Option.some.injEq] at h
    rw [h] at h1
    obtain ⟨hm, hp, hmin⟩ := selectWithPred_spec _ _ _ _ h1
    have ht1 : tagTier t = 1 := (tagTier_cases t).2.1.mp hp
    refine ⟨hm, fun u hu => ?_, fun u hu htu => ?_⟩
    · have := tagTier_ge_one u (hall0 u hu)
      omega
    · exact hmin u hu ((tagTier_cases u).2.1.mpr (by omega))
  | none =>
  rw [h1] at h
  simp only [Option.orElse] at h
  have hall1 := (selectWithPred_eq_none c ts _).mp h1
  cases h2 : selectWithPred c ts (fun t => t.is_release && !t.is_semver) with
  | some v =>
    rw [h2] at h
    simp only [Option.orElse, Option.some.injEq] at h
    rw [h] at h2
    obtain ⟨hm, hp, hmin⟩ := selectWithPred_spec _ _ _ _ h2
    have ht2 : tagTier t = 2 := (tagTier_cases t).2.2.1.mp hp
    refine ⟨hm, fun u hu => ?_, fun u hu htu => ?_⟩
    · have := tagTier_ge_two u (hall0 u hu) (hall1 u hu)
      omega
    · exact hmin u hu ((tagTier_cases u).2.2.1.mpr (by omega))
  | none =>
    rw [h2] at h
    simp only [Option.orElse] at h
    have hall2 := (selectWithPred_eq_none c ts _).mp h2
    obtain ⟨hm, hp, hmin⟩ := selectWithPred_spec _ _ _ _ h
    have ht3 : tagTier t = 3 := (tagTier_cases t).2.2.2.mp hp
    refine ⟨hm, fun u hu => ?_, fun u hu htu => ?_⟩
    · have := tagTier_ge_three u (hall0 u hu) (hall1 u hu) (hall2 u hu)
      have := tagTier_le_three u
      omega
    · exact hmin u hu ((tagTier_cases u).2.2.2.mpr (by omega))

lemma tsLookup_cands (m : GitRepoModel) (h : String)
    (hwf : ∀ pr ∈ m.tags, m.isValidOid pr.2 = true ∧ m.hasCommit pr.2 = true)
    (w : TagInfo) (hw : w ∈ tagsContainingCommit m h) :
    tsLookup ((tagsContainingCommit m h).map fun t =>
        (t.commit_hash, getCommitTimestamp m t.commit_hash)) w.commit_hash =
      w.created_at := by
  rw [tsLookup_map_eq (getCommitTimestamp m) _ _ ⟨w, hw, rfl⟩]
  obtain ⟨-, -, pr, hpr, rfl, -, -⟩ := (mem_tagsContainingCommit m h w).mp hw
  obtain ⟨hv2, hc2⟩ := hwf pr hpr
  simp [mkContainingTag, getCommitTimestamp, hv2, hc2]

/-- C1: with a well-formed tag table (tag commits resolvable), the
local-ancestry release lookup considers exactly the tags whose commit
timestamp is at least the target's and that point to or descend from the
target commit; it returns `None` iff that candidate set is empty, and
otherwise a candidate of the highest non-empty priority tier
(released semver > unreleased semver > released plain > unreleased plain)
with the smallest pointed-to-commit timestamp inside that tier. -/
theorem find_release_local_ancestry_spec (m : GitRepoModel) (h : String)
    (d : Option Int)
    (hwf : ∀ pr ∈ m.tags, m.isValidOid pr.2 = true ∧ m.hasCommit pr.2 = true) :
    (∀ t, t ∈ tagsContainingCommit m h ↔
      (m.isValidOid h = true ∧ m.hasCommit h = true ∧ ∃ pr ∈ m.tags,
        t = mkContainingTag m pr ∧ m.commitTime h ≤ m.commitTime pr.2 ∧
        (pr.2 = h ∨ m.descendantOf pr.2 h = true))) ∧
    (gitBackendFindReleaseForCommit m h d = none ↔
      tagsContainingCommit m h = []) ∧
    (∀ t, gitBackendFindReleaseForCommit m h d = some t →
      t ∈ tagsContainingCommit m h ∧
      (∀ u ∈ tagsContainingCommit m h, tagTier t ≤ tagTier u) ∧
      (∀ u ∈ tagsContainingCommit m h, tagTier u = tagTier t →
        t.created_at ≤ u.created_at)) := by
  refine ⟨fun t => mem_tagsContainingCommit m h t, ?_, ?_⟩
  · unfold gitBackendFindReleaseForCommit findBestTagForCommit
    by_cases hne : tagsContainingCommit m h = []
    · simp [hne]
    · simp only [hne, if_false]
      exact ⟨fun hn => absurd hn (pickBestTag_ne_none _ _ hne), fun he => he.elim⟩
  · intro t hsome
    unfold gitBackendFindReleaseForCommit findBestTagForCommit at hsome
    by_cases hne : tagsContainingCommit m h = []
    · simp [hne] at hsome
    · simp only [hne, if_false] at hsome
      obtain ⟨hm, htier, hmin⟩ := pickBestTag_spec _ _ _ hsome
      refine ⟨hm, htier, fun u hu htu => ?_⟩
      have hlt := hmin u hu htu
      rwa [tsLookup_cands m h hwf t hm, tsLookup_cands m h hwf u hu] at hlt

/-- Concrete two-tag repository used to witness the tag-selection theorem. -/
def demoRepo : GitRepoModel where
  tags := [("v1.0.0", "aa"), ("zz-tag", "bb")]
  commitTime := fun s => if s = "aa" then 20 else if s = "bb" then 30
    else if s = "cc" then 10 else 0
  descendantOf := fun dsc anc => (anc == "cc") && ((dsc == "aa") || (dsc == "bb"))
  isValidOid := fun s => (s == "aa") || (s == "bb") || (s == "cc")
  hasCommit := fun s => (s == "aa") || (s == "bb") || (s == "cc")

theorem find_release_local_ancestry_spec_witness :
    gitBackendFindReleaseForCommit demoRepo "cc" none = none ↔
      tagsContainingCommit demoRepo "cc" = [] :=
  (find_release_local_ancestry_spec demoRepo "cc" none (by decide)).2.1

/-- C10: the git-only backend's `find_release_for_commit` ignores its
date hint entirely — any two date arguments give the same result. -/
theorem git_release_ignores_date (m : GitRepoModel) (h : String)
    (d1 d2 : Option Int) :
    gitBackendFindReleaseForCommit m h d1 =
      gitBackendFindReleaseForCommit m h d2 := rfl

/-- C6 counterexample: `parse_semver` accepts a Python-style pre-release
whose letter run is `dev`, which is none of `a`, `b`, `rc`; the claim that
only those letter runs are recognized is false on the code. -/
theorem parse_semver_python_letters_counterexample :
    parseSemver "1.2.3dev1" = some
      { major := 1, minor := 2, patch := some 3, build := none,
        pre_release := some "dev1", build_metadata := none } ∧
    ("dev" ≠ "a" ∧ "dev" ≠ "b" ∧ "dev" ≠ "rc") := by
  exact ⟨by decide, by decide⟩

lemma isDigitCh_false_of_lower {c : Char} (h : isLowerCh c = true) :
    isDigitCh c = false := by
  simp only [isLowerCh, Bool.and_eq_true, decide_eq_true_eq] at h
  have h9 : ¬ c ≤ '9' := fun hc => absurd (le_trans h.1 hc) (by decide)
  simp [isDigitCh, h9]

lemma isLowerCh_false_of_digit {c : Char} (h : isDigitCh c = true) :
    isLowerCh c = false := by
  simp only [isDigitCh, Bool.and_eq_true, decide_eq_true_eq] at h
  have ha : ¬ 'a' ≤ c := fun hc => absurd (le_trans hc h.2) (by decide)
  simp [isLowerCh, ha]

lemma lower_ne_dash {c : Char} (h : isLowerCh c = true) : c ≠ '-' :=
  fun he => absurd (he ▸ h) (by decide)

lemma lower_ne_dot {c : Char} (h : isLowerCh c = true) : c ≠ '.' :=
  fun he => absurd (he ▸ h) (by decide)

lemma takeWhile_append_all {p : Char → Bool} {xs : List Char} (ys : List Char)
    (h : ∀ x ∈ xs, p x = true) :
    (xs ++ ys).takeWhile p = xs ++ ys.takeWhile p := by
  induction xs with
  | nil => simp
  | cons a l ih =>
    have ha := h a (List.mem_cons_self a l)
    simp only [List.cons_append, List.takeWhile_cons, ha, if_true]
    rw [ih fun x hx => h x (List.mem_cons_of_mem a hx)]

lemma takeWhile_all {p : Char → Bool} {xs : List Char}
    (h : ∀ x ∈ xs, p x = true) : xs.takeWhile p = xs := by
  have := takeWhile_append_all (p := p) [] h
  simpa using this

lemma takeWhile_nil_head {p : Char → Bool} {c : Char} (cs : List Char)
    (h : p c = false) : (c :: cs).takeWhile p = [] := by
  simp [List.takeWhile_cons, h]

/-- Reduction of `parseSemver` over a `1.2.3` core followed by an
arbitrary tail. -/
lemma parseSemver_onetwothree (rest : List Char) :
    parseSemver ⟨'1' :: '.' :: '2' :: '.' :: '3' :: rest⟩ =
      (do
        let (patchDs, cs) := semverDotNum ('.' :: '3' :: rest)
        let (buildDs, cs) := semverDotNum cs
        let (pre, meta) ← semverTail cs
        some { major := 1, minor := 2,
               patch := patchDs.bind parseU32, build := buildDs.bind parseU32,
               pre_release := pre, build_metadata := meta }) := rfl

/-- C6 amended: the Python-style pre-release branch of `parse_semver`
accepts ANY nonempty lowercase-letter run directly followed by digits,
not only `a`, `b`, `rc`. -/
theorem parse_semver_python_any_lowercase (wd dd : List Char)
    (hw : wd ≠ []) (hwl : ∀ c ∈ wd, isLowerCh c = true)
    (hd : dd ≠ []) (hdd : ∀ c ∈ dd, isDigitCh c = true) :
    parseSemver ⟨'1' :: '.' :: '2' :: '.' :: '3' :: (wd ++ dd)⟩ = some
      { major := 1, minor := 2, patch := some 3, build := none,
        pre_release := some (⟨wd ++ dd⟩ : String), build_metadata := none } := by
  obtain ⟨c0, ws, rfl⟩ : ∃ c0 ws, wd = c0 :: ws := by
    cases wd with
    | nil => exact absurd rfl hw
    | cons a l => exact ⟨a, l, rfl⟩
  obtain ⟨d0, ds, rfl⟩ : ∃ d0 ds, dd = d0 :: ds := by
    cases dd with
    | nil => exact absurd rfl hd
    | cons a l => exact ⟨a, l, rfl⟩
  have hc0 : isLowerCh c0 = true := hwl c0 (List.mem_cons_self _ _)
  have hd0 : isDigitCh d0 = true := hdd d0 (List.mem_cons_self _ _)
  have hTW : ((c0 :: ws) ++ (d0 :: ds)).takeWhile isLowerCh = c0 :: ws := by
    rw [takeWhile_append_all _ hwl,
      takeWhile_nil_head ds (isLowerCh_false_of_digit hd0), List.append_nil]
  have hTD : (d0 :: ds).takeWhile isDigitCh = d0 :: ds := takeWhile_all hdd
  have hDrop : ((c0 :: ws) ++ (d0 :: ds)).drop (c0 :: ws).length = d0 :: ds :=
    List.drop_left _ _
  have hDot1 : semverDotNum ('.' :: '3' :: ((c0 :: ws) ++ (d0 :: ds))) =
      (some ['3'], (c0 :: ws) ++ (d0 :: ds)) := by
    have h3 : isDigitCh '3' = true := by decide
    simp [semverDotNum, List.cons_append, List.takeWhile_cons,
      isDigitCh_false_of_lower hc0, h3]
  have hDot2 : semverDotNum ((c0 :: ws) ++ (d0 :: ds)) =
      (none, (c0 :: ws) ++ (d0 :: ds)) := by
    simp only [List.cons_append, semverDotNum]
    rw [if_neg (lower_ne_dot hc0)]
  have hTail : semverTail ((c0 :: ws) ++ (d0 :: ds)) =
      some (some (⟨(c0 :: ws) ++ (d0 :: ds)⟩ : String), none) := by
    simp only [List.cons_append] at hTW hDrop ⊢
    simp only [semverTail]
    rw [if_neg (lower_ne_dash hc0), if_pos hc0]
    simp only [hTW, hDrop, hTD]
    have hne : (d0 :: ds) ≠ [] := List.cons_ne_nil _ _
    rw [if_neg hne, List.drop_length]
    rfl
  rw [parseSemver_onetwothree, hDot1]
  simp only [hDot2, hTail]
  rfl

theorem parse_semver_python_any_lowercase_witness :
    parseSemver ⟨'1' :: '.' :: '2' :: '.' :: '3' :: (['d', 'e', 'v'] ++ ['2'])⟩ =
      some
        { major := 1, minor := 2, patch := some 3, build := none,
          pre_release := some (⟨['d', 'e', 'v'] ++ ['2']⟩ : String),
          build_metadata := none } :=
  parse_semver_python_any_lowercase ['d', 'e', 'v'] ['2']
    (by decide) (by decide) (by decide) (by decide)

/-! ### Release pagination (github.rs `fetch_releases_since`)

The paginated GitHub release stream is modelled as the list of pages the
API would serve in order (the code requests them newest-first with
`per_page = 100`, `page = 1, 2, ...`); the model returns both the
collected releases and the number of pages actually fetched. -/

/-- GitHub release record `ReleaseInfo` (github.rs). -/
structure ReleaseInfo where
  tag_name : String
  name : Option String
  body : Option String
  url : String
  published_at : Option Int
  created_at : Option Int
  prerelease : Bool
  deriving Repr, DecidableEq

/-- Comparator of `sort_by(|a, b| b.created_at.cmp(&a.created_at))`:
descending by `created_at`, with `None` ordered below every `Some`. -/
def releaseLeDesc (a b : ReleaseInfo) : Bool :=
  match a.created_at, b.created_at with
  | _, none => true
  | none, some _ => false
  | some x, some y => decide (y ≤ x)

/-- One page's inner `for release in current_page.items` loop: push until
the first release with `created_at.unwrap_or_default() < since_date`;
returns the pushed releases and whether the `break 'pagintaion` fired. -/
def processReleasePage (since : Int) : List ReleaseInfo → List ReleaseInfo × Bool
  | [] => ([], false)
  | r :: rest =>
      if r.created_at.getD 0 < since then ([], true)
      else
        let acc := processReleasePage since rest
        (r :: acc.1, acc.2)

/-- The `'pagintaion` loop of `fetch_releases_since`: stop on an empty
page, sort the page descending by `created_at`, push until the cutoff,
and otherwise fetch the next page. The second component counts fetched
pages. -/
def fetchReleasesSinceAux (since : Int) :
    List (List ReleaseInfo) → List ReleaseInfo × Nat
  | [] => ([], 0)
  | page :: restPages =>
      if page = [] then ([], 1)
      else
        let sorted := page.mergeSort releaseLeDesc
        let pr := processReleasePage since sorted
        if pr.2 then (pr.1, 1)
        else
          match restPages with
          | [] => (pr.1, 1)
          | p :: ps =>
              let mk := fetchReleasesSinceAux since (p :: ps)
              (pr.1 ++ mk.1, mk.2 + 1)

/-- `GitHubClient::fetch_releases_since` over a served page stream. -/
def fetchReleasesSince (pages : List (List ReleaseInfo)) (since : Int) :
    List ReleaseInfo × Nat :=
  fetchReleasesSinceAux since pages

lemma processReleasePage_sound (since : Int) (l : List ReleaseInfo) :
    ∀ r ∈ (processReleasePage since l).1, since ≤ r.created_at.getD 0 := by
  induction l with
  | nil => simp [processReleasePage]
  | cons x xs ih =>
    simp only [processReleasePage]
    split
    · simp
    · intro r hr
      rcases List.mem_cons.mp hr with rfl | hr
      · exact le_of_not_lt (by assumption)
      · exact ih r hr

lemma processReleasePage_not_stopped (since : Int) (l : List ReleaseInfo)
    (h : (processReleasePage since l).2 = false) :
    ∀ r ∈ l, since ≤ r.created_at.getD 0 := by
  induction l with
  | nil => simp
  | cons x xs ih =>
    simp only [processReleasePage] at h
    intro r hr
    split at h
    · simp at h
    · rcases List.mem_cons.mp hr with rfl | hr
      · exact le_of_not_lt (by assumption)
      · exact ih h r hr

set_option maxRecDepth 2048 in
/-- C7: `fetch_releases_since` sorts each page descending by `created_at`
before the cutoff check (by construction of `fetchReleasesSinceAux`),
every returned release satisfies `created_at.unwrap_or_default() ≥ since`,
no more pages than served are fetched, and any fetched page that was
followed by a further page fetch contained no release older than `since`
— so no page after the one containing the first too-old release is ever
fetched. -/
theorem fetch_releases_since_spec (pages : List (List ReleaseInfo)) (since : Int) :
    (∀ r ∈ (fetchReleasesSince pages since).1, since ≤ r.created_at.getD 0) ∧
    (fetchReleasesSince pages since).2 ≤ pages.length ∧
    (∀ i : Nat, i + 1 < (fetchReleasesSince pages since).2 →
      ∀ r ∈ pages.getD i [], since ≤ r.created_at.getD 0) := by
  induction pages with
  | nil =>
    refine ⟨by simp [fetchReleasesSince, fetchReleasesSinceAux], ?_, ?_⟩
    · simp [fetchReleasesSince, fetchReleasesSinceAux]
    · intro i hi
      simp [fetchReleasesSince, fetchReleasesSinceAux] at hi
  | cons page rest ih =>
    by_cases hp : page = []
    · refine ⟨?_, ?_, ?_⟩
      · simp [fetchReleasesSince, fetchReleasesSinceAux, hp]
      · simp [fetchReleasesSince, fetchReleasesSinceAux, hp]
      · intro i hi
        simp [fetchReleasesSince, fetchReleasesSinceAux, hp] at hi
    · have hsound := processReleasePage_sound since (page.mergeSort releaseLeDesc)
      cases hst : (processReleasePage since (page.mergeSort releaseLeDesc)).2 with
      | true =>
        have hres : fetchReleasesSince (page :: rest) since =
            ((processReleasePage since (page.mergeSort releaseLeDesc)).1, 1) := by
          simp [fetchReleasesSince, fetchReleasesSinceAux, hp, hst]
        refine ⟨?_, ?_, ?_⟩
        · rw [hres]; exact hsound
        · rw [hres]; simp
        · intro i hi
          rw [hres] at hi
          omega
      | false =>
        cases rest with
        | nil =>
          have hres : fetchReleasesSince [page] since =
              ((processReleasePage since (page.mergeSort releaseLeDesc)).1, 1) := by
            simp [fetchReleasesSince, fetchReleasesSinceAux, hp, hst]
          refine ⟨?_, ?_, ?_⟩
          · rw [hres]; exact hsound
          · rw [hres]; simp
          · intro i hi
            rw [hres] at hi
            omega
        | cons p ps =>
          have hres : fetchReleasesSince (page :: p :: ps) since =
              ((processReleasePage since (page.mergeSort releaseLeDesc)).1 ++
                  (fetchReleasesSinceAux since (p :: ps)).1,
                (fetchReleasesSinceAux since (p :: ps)).2 + 1) := by
            show (if page = [] then (([] : List ReleaseInfo), 1)
              else
                let sorted := page.mergeSort releaseLeDesc
                let pr := processReleasePage since sorted
                if pr.2 then (pr.1, 1)
                else
                  let mk := fetchReleasesSinceAux since (p :: ps)
                  (pr.1 ++ mk.1, mk.2 + 1)) = _
            rw [if_neg hp]
            simp only [hst, Bool.false_eq_true, if_false]
          obtain ⟨ih1, ih2, ih3⟩ := ih
          refine ⟨?_, ?_, ?_⟩
          · rw [hres]
            intro r hr
            rcases List.mem_append.mp hr with hr | hr
            · exact hsound r hr
            · exact ih1 r hr
          · rw [hres]
            simpa using ih2
          · intro i hi
            rw [hres] at hi
            cases i with
            | zero =>
              intro r hr
              exact processReleasePage_not_stopped since _ hst r
                (List.mem_mergeSort.mpr hr)
            | succ j =>
              intro r hr
              have hj : j + 1 < (fetchReleasesSinceAux since (p :: ps)).2 := by
                simpa using Nat.lt_of_succ_lt_succ hi
              exact ih3 j hj r hr

/-- Concrete two-page release stream used to witness the pagination
theorem. -/
def demoPages : List (List ReleaseInfo) :=
  [[{ tag_name := "v2.0.0", name := none, body := none, url := "u2",
      published_at := none, created_at := some 10, prerelease := false }],
   [{ tag_name := "v1.0.0", name := none, body := none, url := "u1",
      published_at := none, created_at := some 1, prerelease := false }]]

theorem fetch_releases_since_spec_witness :
    (fetchReleasesSince demoPages 5).2 ≤ demoPages.length :=
  (fetch_releases_since_spec demoPages 5).2.1

/-! ### Closing-PR discovery (github.rs `find_closing_prs`)

The paginated timeline is modelled as the list of pages the API serves;
PR fetches go through an oracle `fetchPr` standing for
`GitHubClient::fetch_pr`. -/

/-- Pull-request record `PullRequestInfo` (github.rs). -/
structure PullRequestInfo where
  number : Nat
  repo_info : Option GhRepoInfo
  title : String
  body : Option String
  state : String
  url : String
  merged : Bool
  merge_commit_sha : Option String
  author : Option String
  author_url : Option String
  created_at : Option Int
  deriving Repr, DecidableEq

/-- The timeline event kinds distinguished by `find_closing_prs`. -/
inductive TimelineEventType where
  | closed : TimelineEventType
  | crossReferenced : TimelineEventType
  | referenced : TimelineEventType
  | other : TimelineEventType
  deriving Repr, DecidableEq

/-- The parts of `event.source.issue` that `find_closing_prs` reads:
whether a `pull_request` link is present, the issue (= PR) number, and
the coordinates parsed from `repository_url`. -/
structure EventSource where
  isPullRequest : Bool
  number : Nat
  repoCoords : Option GhRepoInfo
  deriving Repr, DecidableEq

structure TimelineEvent where
  event : TimelineEventType
  source : Option EventSource
  deriving Repr, DecidableEq

/-- The dedup test `closing_prs.iter().any(..)` over `(coords, number)`. -/
def closingPrsDedupHit (acc : List PullRequestInfo) (n : Nat)
    (coords : GhRepoInfo) : Bool :=
  acc.any fun p =>
    p.number == n &&
    (match p.repo_info with
     | some ri => ri.owner == coords.owner
     | none => false) &&
    (match p.repo_info with
     | some ri => ri.repo == coords.repo
     | none => false)

/-- The inner `for event in &current_page.items` loop of
`find_closing_prs`. The Bool reports whether the `break` after adopting a
`Closed` merged PR fired; note the `break` ends only this per-page loop. -/
def processTimelinePage (fetchPr : GhRepoInfo → Nat → Option PullRequestInfo)
    (acc : List PullRequestInfo) :
    List TimelineEvent → List PullRequestInfo × Bool
  | [] => (acc, false)
  | e :: rest =>
    match e.source with
    | none => processTimelinePage fetchPr acc rest
    | some src =>
      if src.isPullRequest then
        match src.repoCoords with
        | none => processTimelinePage fetchPr acc rest
        | some coords =>
          match fetchPr coords src.number with
          | none => processTimelinePage fetchPr acc rest
          | some prInfo =>
            if ¬ prInfo.merged then processTimelinePage fetchPr acc rest
            else if e.event = .closed then (acc ++ [prInfo], true)
            else if e.event = .crossReferenced ∨ e.event = .referenced then
              if closingPrsDedupHit acc src.number coords then
                processTimelinePage fetchPr acc rest
              else processTimelinePage fetchPr (acc ++ [prInfo]) rest
            else processTimelinePage fetchPr acc rest
      else processTimelinePage fetchPr acc rest

/-- The pagination loop of `find_closing_prs`: after each page the next
one is fetched and processed regardless of whether the per-page loop was
left through the `Closed`-adoption `break`. -/
def findClosingPrsAux (fetchPr : GhRepoInfo → Nat → Option PullRequestInfo)
    (acc : List PullRequestInfo) :
    List (List TimelineEvent) → List PullRequestInfo
  | [] => acc
  | page :: rest =>
      findClosingPrsAux fetchPr (processTimelinePage fetchPr acc page).1 rest

/-- `GitHubClient::find_closing_prs` over a served timeline page stream
(the saml-fallback flag is determined by client selection and passed
through unchanged). -/
def findClosingPrs (fetchPr : GhRepoInfo → Nat → Option PullRequestInfo)
    (pages : List (List TimelineEvent)) (samlFallback : Bool) :
    List PullRequestInfo × Bool :=
  (findClosingPrsAux fetchPr [] pages, samlFallback)

/-- Merged PR #9 of `o/r`, referenced by a `Closed` timeline event. -/
def prA : PullRequestInfo :=
  { number := 9, repo_info := some ⟨"o", "r"⟩, title := "A", body := none,
    state := "closed", url := "uA", merged := true,
    merge_commit_sha := some "aaa", author := none, author_url := none,
    created_at := none }

/-- Merged PR #11 of `o/r`, referenced by a later `Referenced` event. -/
def prB : PullRequestInfo :=
  { number := 11, repo_info := some ⟨"o", "r"⟩, title := "B", body := none,
    state := "closed", url := "uB", merged := true,
    merge_commit_sha := some "bbb", author := none, author_url := none,
    created_at := none }

def demoFetchPr : GhRepoInfo → Nat → Option PullRequestInfo := fun _ n =>
  if n = 9 then some prA else if n = 11 then some prB else none

def evClosedA : TimelineEvent :=
  { event := .closed,
    source := some { isPullRequest := true, number := 9,
                     repoCoords := some ⟨"o", "r"⟩ } }

def evRefB : TimelineEvent :=
  { event := .referenced,
    source := some { isPullRequest := true, number := 11,
                     repoCoords := some ⟨"o", "r"⟩ } }

/-- C3: adopting the merged PR of a `Closed` event does NOT stop candidate
accumulation across pages — the `break` leaves only the per-page loop, so
an event on the next page still appends another PR to `closing_prs`. -/
theorem find_closing_prs_accumulates_after_closed_adoption :
    (findClosingPrs demoFetchPr [[evClosedA], [evRefB]] false).1 = [prA, prB] ∧
    prB ≠ prA := by
  exact ⟨by decide, by decide⟩

/-! ### Resolver (resolution.rs)

Backends are modelled as records of the operations the resolver calls;
`for_repo` yields a `SubBackend` (cross-project backends are only queried
for commit, enrichment and release lookups). -/

inductive IssueState where
  | isOpen : IssueState
  | isClosed : IssueState
  deriving Repr, DecidableEq

/-- Issue record `ExtendedIssueInfo` (github.rs). -/
structure IssueInfo where
  number : Nat
  title : String
  body : Option String
  state : IssueState
  url : String
  author : Option String
  author_url : Option String
  closing_prs : List PullRequestInfo
  created_at : Option Int
  timeline_may_be_incomplete : Bool
  deriving Repr, DecidableEq

/-- File record `FileInfo` (git.rs): path, last touching commit, and up to
four previous authors as (short hash, name, email). -/
structure FileInfo where
  path : String
  last_commit : CommitInfo
  previous_authors : List (String × String × String)
  deriving Repr, DecidableEq

/-- `EntryPoint` (identifier.rs). -/
inductive EntryPoint where
  | commit : String → EntryPoint
  | pullRequestNumber : Nat → EntryPoint
  | issueNumber : Nat → EntryPoint
  deriving Repr, DecidableEq

/-- `EnrichedInfo` (identifier.rs). -/
structure EnrichedInfo where
  entry_point : EntryPoint
  commit : Option CommitInfo
  pr : Option PullRequestInfo
  issue : Option IssueInfo
  release : Option TagInfo
  deriving Repr, DecidableEq

/-- `FileResult` (identifier.rs). -/
structure FileResult where
  file_info : FileInfo
  commit_url : Option String
  author_urls : List (Option String)
  release : Option TagInfo
  deriving Repr, DecidableEq

/-- `IdentifiedThing` (identifier.rs). -/
inductive IdentifiedThing where
  | enriched : EnrichedInfo → IdentifiedThing
  | file : FileResult → IdentifiedThing
  | tagOnly : TagInfo → Option String → IdentifiedThing
  deriving Repr, DecidableEq

/-- The capability record a cross-project backend exposes to
`resolve_issue` (the operations called on the `for_repo` result). -/
structure SubBackend where
  repoInfo : Option GhRepoInfo
  findCommit : String → Except WtgErr CommitInfo
  enrichCommit : CommitInfo → CommitInfo
  findReleaseForCommit : String → Option Int → Option TagInfo

/-- The `Backend` trait object as the resolver sees it (backend/mod.rs);
each field is one trait operation. -/
structure BackendM where
  repoInfo : Option GhRepoInfo
  findCommit : String → Except WtgErr CommitInfo
  enrichCommit : CommitInfo → CommitInfo
  findReleaseForCommit : String → Option Int → Option TagInfo
  fetchIssue : Nat → Except WtgErr IssueInfo
  fetchPr : Nat → Except WtgErr PullRequestInfo
  findFile : String → Except WtgErr FileInfo
  findTag : String → Except WtgErr TagInfo
  forRepo : GhRepoInfo → Option SubBackend
  commitUrl : String → Option String
  tagUrl : String → Option String
  authorUrlFromEmail : String → Option String

/-- `Backend::find_commit_for_pr` default implementation
(backend/mod.rs): look up the merge commit SHA, or `NotFound`. -/
def findCommitForPr (b : BackendM) (pr : PullRequestInfo) :
    Except WtgErr CommitInfo :=
  match pr.merge_commit_sha with
  | some sha => b.findCommit sha
  | none => .error (.notFound "PR has no merge commit")

/-- `resolve_commit` (resolution.rs). -/
def resolveCommit (b : BackendM) (hash : String) :
    Except WtgErr IdentifiedThing := do
  let commit ← b.findCommit hash
  let commit := b.enrichCommit commit
  let release := b.findReleaseForCommit commit.hash (some commit.date)
  .ok (.enriched
    { entry_point := .commit hash, commit := some commit,
      pr := none, issue := none, release := release })

/-- `resolve_pr` (resolution.rs). -/
def resolvePr (b : BackendM) (number : Nat) : Except WtgErr IdentifiedThing := do
  let pr ← b.fetchPr number
  let commit := (findCommitForPr b pr).toOption
  let commit := commit.map b.enrichCommit
  let release :=
    match commit with
    | some c => b.findReleaseForCommit c.hash (some c.date)
    | none => none
  .ok (.enriched
    { entry_point := .pullRequestNumber number,
      commit := commit, pr := some pr, issue := none, release := release })

/-- `resolve_issue` (resolution.rs): adopt the first closing PR; on a
cross-repo PR spawn a sibling backend with `for_repo`, resolve and enrich
the merge commit there, and resolve the release against the issue's own
backend first, falling back to the sibling. -/
def resolveIssue (b : BackendM) (number : Nat) :
    Except WtgErr IdentifiedThing := do
  let extIssue ← b.fetchIssue number
  let closingPr := extIssue.closing_prs.head?
  let cr : Option CommitInfo × Option TagInfo :=
    match closingPr with
    | some pr =>
      match pr.merge_commit_sha with
      | some mergeSha =>
        let isCrossRepo : Bool :=
          match pr.repo_info, b.repoInfo with
          | some prRepo, some ri =>
              prRepo.owner != ri.owner || prRepo.repo != ri.repo
          | _, _ => false
        if isCrossRepo then
          match pr.repo_info with
          | some prRepo =>
            match b.forRepo prRepo with
            | some cross =>
              let commit := (cross.findCommit mergeSha).toOption
              let commit := commit.map cross.enrichCommit
              let release :=
                match commit with
                | some c =>
                  (match b.findReleaseForCommit c.hash (some c.date) with
                   | some r => some r
                   | none => cross.findReleaseForCommit c.hash (some c.date))
                | none => none
              (commit, release)
            | none => (none, none)
          | none => (none, none)
        else
          let commit := (b.findCommit mergeSha).toOption
          let commit := commit.map b.enrichCommit
          let release :=
            match commit with
            | some c => b.findReleaseForCommit c.hash (some c.date)
            | none => none
          (commit, release)
      | none => (none, none)
    | none => (none, none)
  .ok (.enriched
    { entry_point := .issueNumber number, commit := cr.1,
      pr := closingPr, issue := some extIssue, release := cr.2 })

/-- `resolve_file` (resolution.rs). -/
def resolveFile (b : BackendM) (path : String) :
    Except WtgErr IdentifiedThing := do
  let fileInfo ← b.findFile path
  let commitUrl := b.commitUrl fileInfo.last_commit.hash
  let authorUrls := fileInfo.previous_authors.map fun t =>
    b.authorUrlFromEmail t.2.2
  let release := b.findReleaseForCommit fileInfo.last_commit.hash
    (some fileInfo.last_commit.date)
  .ok (.file
    { file_info := fileInfo, commit_url := commitUrl,
      author_urls := authorUrls, release := release })

/-- `resolve_tag` (resolution.rs). -/
def resolveTag (b : BackendM) (name : String) :
    Except WtgErr IdentifiedThing := do
  let tag ← b.findTag name
  .ok (.tagOnly tag (b.tagUrl name))

/-- Rust `str::parse::<u64>()`: an optional leading `+`, then one or more
ASCII digits, value below `2^64`. -/
def parseU64Str (s : String) : Option Nat :=
  let cs := match s.data with
    | '+' :: rest => rest
    | cs => cs
  if cs ≠ [] ∧ cs.all isDigitCh then
    let n := digitsToNat cs
    if n < 18446744073709551616 then some n else none
  else none

/-- `resolve_unknown` (resolution.rs): probe commit, then (for numeric
input) PR then issue, then file, then tag; every `if let Ok(..)` discards
the probe's error, whatever its kind. -/
def resolveUnknown (b : BackendM) (input : String) :
    Except WtgErr IdentifiedThing :=
  match resolveCommit b input with
  | .ok r => .ok r
  | .error _ =>
    match
      (match parseU64Str input with
       | some n =>
         (match resolvePr b n with
          | .ok r => some r
          | .error _ =>
            match resolveIssue b n with
            | .ok r => some r
            | .error _ => none)
       | none => none) with
    | some r => .ok r
    | none =>
      match resolveFile b input with
      | .ok r => .ok r
      | .error _ =>
        match resolveTag b input with
        | .ok r => .ok r
        | .error _ => .error (.notFound input)

lemma except_bind_ok {α β : Type} (a : α) (f : α → Except WtgErr β) :
    (do let x ← (Except.ok a : Except WtgErr α); f x) = f a := rfl

/-- C2: for an issue whose first closing PR lives in another repository,
`resolve_issue` spawns the sibling backend with `for_repo`, resolves and
enriches the merge commit through it, and picks the release from the
issue's own backend first, falling back to the sibling's only when the
former yields `None`. -/
theorem resolve_issue_cross_repo (b : BackendM) (n : Nat) (ext : IssueInfo)
    (pr : PullRequestInfo) (prRepo ri : GhRepoInfo) (sha : String)
    (cross : SubBackend) (c : CommitInfo)
    (hIss : b.fetchIssue n = .ok ext)
    (hHead : ext.closing_prs.head? = some pr)
    (hSha : pr.merge_commit_sha = some sha)
    (hPrRepo : pr.repo_info = some prRepo)
    (hRi : b.repoInfo = some ri)
    (hDiff : prRepo.owner ≠ ri.owner ∨ prRepo.repo ≠ ri.repo)
    (hCross : b.forRepo prRepo = some cross)
    (hFind : cross.findCommit sha = .ok c) :
    resolveIssue b n = .ok (.enriched
      { entry_point := .issueNumber n,
        commit := some (cross.enrichCommit c),
        pr := some pr,
        issue := some ext,
        release :=
          match b.findReleaseForCommit (cross.enrichCommit c).hash
              (some (cross.enrichCommit c).date) with
          | some r => some r
          | none =>
              cross.findReleaseForCommit (cross.enrichCommit c).hash
                (some (cross.enrichCommit c).date) }) := by
  have hcross2 : (prRepo.owner != ri.owner || prRepo.repo != ri.repo) = true := by
    rcases hDiff with h | h <;> simp [h, bne_iff_ne]
  unfold resolveIssue
  rw [hIss, except_bind_ok]
  simp only [hHead, hSha, hPrRepo, hRi, hcross2, if_true, hCross, hFind,
    Except.toOption, Option.map]

/-- Concrete merge commit of the cross-repo closing PR. -/
def demoCommit : CommitInfo :=
  { hash := "mmm", short_hash := "mmm", message := "m", message_lines := 1,
    commit_url := none, author_name := "a", author_email := none,
    author_login := none, author_url := none, date := 50 }

/-- Release known only to the sibling (`o/r2`) backend. -/
def demoTagX : TagInfo :=
  { name := "r2-v1", commit_hash := "ttt", semver_info := none,
    created_at := 60, is_release := true, release_name := none,
    release_url := none, published_at := none }

/-- Closing PR #9 living in `o/r2`, merged as commit `mmm`. -/
def crossPr : PullRequestInfo :=
  { number := 9, repo_info := some ⟨"o", "r2"⟩, title := "x", body := none,
    state := "closed", url := "up", merged := true,
    merge_commit_sha := some "mmm", author := none, author_url := none,
    created_at := none }

/-- Closed issue #7 of `o/r`, closed by the cross-repo PR. -/
def demoIssue : IssueInfo :=
  { number := 7, title := "t", body := none, state := .isClosed, url := "u",
    author := none, author_url := none, closing_prs := [crossPr],
    created_at := none, timeline_may_be_incomplete := false }

/-- Sibling backend for `o/r2` spawned by `for_repo`. -/
def crossSub : SubBackend :=
  { repoInfo := some ⟨"o", "r2"⟩,
    findCommit := fun h =>
      if h = "mmm" then .ok demoCommit else .error (.notFound h),
    enrichCommit := id,
    findReleaseForCommit := fun _ _ => some demoTagX }

/-- Backend of the issue's own repository `o/r` (no releases of its own,
so the cross-repo fallback fires). -/
def issueBackend : BackendM :=
  { repoInfo := some ⟨"o", "r"⟩,
    findCommit := fun h => .error (.notFound h),
    enrichCommit := id,
    findReleaseForCommit := fun _ _ => none,
    fetchIssue := fun k =>
      if k = 7 then .ok demoIssue else .error (.notFound "issue"),
    fetchPr := fun _ => .error (.unsupported "PR lookup"),
    findFile := fun p => .error (.notFound p),
    findTag := fun t => .error (.notFound t),
    forRepo := fun co => if co = ⟨"o", "r2"⟩ then some crossSub else none,
    commitUrl := fun _ => none,
    tagUrl := fun _ => none,
    authorUrlFromEmail := fun _ => none }

theorem resolve_issue_cross_repo_witness :
    resolveIssue issueBackend 7 = .ok (.enriched
      { entry_point := .issueNumber 7,
        commit := some (crossSub.enrichCommit demoCommit),
        pr := some crossPr,
        issue := some demoIssue,
        release :=
          match issueBackend.findReleaseForCommit
              (crossSub.enrichCommit demoCommit).hash
              (some (crossSub.enrichCommit demoCommit).date) with
          | some r => some r
          | none =>
              crossSub.findReleaseForCommit
                (crossSub.enrichCommit demoCommit).hash
                (some (crossSub.enrichCommit demoCommit).date) }) :=
  resolve_issue_cross_repo issueBackend 7 demoIssue crossPr ⟨"o", "r2"⟩
    ⟨"o", "r"⟩ "mmm" crossSub demoCommit rfl rfl rfl rfl rfl
    (Or.inr (by decide)) rfl rfl

/-- Backend every operation of which fails with a `Timeout` error. -/
def bTimeout : BackendM :=
  { repoInfo := none,
    findCommit := fun _ => .error .timeout,
    enrichCommit := id,
    findReleaseForCommit := fun _ _ => none,
    fetchIssue := fun _ => .error .timeout,
    fetchPr := fun _ => .error .timeout,
    findFile := fun _ => .error .timeout,
    findTag := fun _ => .error .timeout,
    forRepo := fun _ => none,
    commitUrl := fun _ => none,
    tagUrl := fun _ => none,
    authorUrlFromEmail := fun _ => none }

/-- C4 counterexample: when every probe fails with `Timeout`,
`resolve_unknown` returns `NotFound(input)` instead of aborting the run
with the timeout error — probe errors of every kind are discarded. -/
theorem resolve_unknown_swallows_timeout_counterexample :
    resolveUnknown bTimeout "42" = .error (.notFound "42") ∧
    WtgErr.notFound "42" ≠ WtgErr.timeout := by
  exact ⟨rfl, by decide⟩

/-- C4 amended: `resolve_unknown` probes commit, then (for a `u64` input)
PR then issue, then file, then tag, returning the first success; EVERY
probe error — `NotFound`, `Unsupported`, rate limit, SAML, timeout and
I/O alike — moves it to the next option, and when all probes fail it
returns `NotFound(input)`. -/
theorem resolve_unknown_probe_semantics (b : BackendM) (input : String) :
    (∀ r, resolveCommit b input = .ok r → resolveUnknown b input = .ok r) ∧
    (∀ e n r, resolveCommit b input = .error e → parseU64Str input = some n →
      resolvePr b n = .ok r → resolveUnknown b input = .ok r) ∧
    (∀ e n e2 r, resolveCommit b input = .error e →
      parseU64Str input = some n → resolvePr b n = .error e2 →
      resolveIssue b n = .ok r → resolveUnknown b input = .ok r) ∧
    (∀ e r, resolveCommit b input = .error e →
      (parseU64Str input = none ∨ ∃ n e2 e3, parseU64Str input = some n ∧
        resolvePr b n = .error e2 ∧ resolveIssue b n = .error e3) →
      resolveFile b input = .ok r → resolveUnknown b input = .ok r) ∧
    (∀ e e4 r, resolveCommit b input = .error e →
      (parseU64Str input = none ∨ ∃ n e2 e3, parseU64Str input = some n ∧
        resolvePr b n = .error e2 ∧ resolveIssue b n = .error e3) →
      resolveFile b input = .error e4 → resolveTag b input = .ok r →
      resolveUnknown b input = .ok r) ∧
    (∀ e e4 e5, resolveCommit b input = .error e →
      (parseU64Str input = none ∨ ∃ n e2 e3, parseU64Str input = some n ∧
        resolvePr b n = .error e2 ∧ resolveIssue b n = .error e3) →
      resolveFile b input = .error e4 → resolveTag b input = .error e5 →
      resolveUnknown b input = .error (.notFound input)) := by
  refine ⟨?_, ?_, ?_, ?_, ?_, ?_⟩
  · intro r hc
    unfold resolveUnknown
    simp only [hc]
  · intro e n r hc hn hp
    unfold resolveUnknown
    simp only [hc, hn, hp]
  · intro e n e2 r hc hn hp hi
    unfold resolveUnknown
    simp only [hc, hn, hp, hi]
  · intro e r hc hnum hf
    unfold resolveUnknown
    rcases hnum with hn | ⟨n, e2, e3, hn, hp, hi⟩
    · simp only [hc, hn, hf]
    · simp only [hc, hn, hp, hi, hf]
  · intro e e4 r hc hnum hf ht
    unfold resolveUnknown
    rcases hnum with hn | ⟨n, e2, e3, hn, hp, hi⟩
    · simp only [hc, hn, hf, ht]
    · simp only [hc, hn, hp, hi, hf, ht]
  · intro e e4 e5 hc hnum hf ht
    unfold resolveUnknown
    rcases hnum with hn | ⟨n, e2, e3, hn, hp, hi⟩
    · simp only [hc, hn, hf, ht]
    · simp only [hc, hn, hp, hi, hf, ht]

theorem resolve_unknown_probe_semantics_witness :
    resolveUnknown bTimeout "7" = .error (.notFound "7") :=
  (resolve_unknown_probe_semantics bTimeout "7").2.2.2.2.2 .timeout .timeout
    .timeout rfl (Or.inr ⟨7, .timeout, .timeout, rfl, rfl, rfl⟩) rfl rfl

/-! ### Commit enrichment (backend/git_backend.rs, backend/mod.rs)

`GitHubClient::commit_url` percent-encodes every UTF-8 byte outside the
ASCII alphanumerics (the `NON_ALPHANUMERIC` set, uppercase hex). -/

/-- UTF-8 byte sequence of a scalar value. -/
def charUtf8Bytes (c : Char) : List Nat :=
  let n := c.toNat
  if n < 128 then [n]
  else if n < 2048 then [192 + n / 64, 128 + n % 64]
  else if n < 65536 then [224 + n / 4096, 128 + (n / 64) % 64, 128 + n % 64]
  else [240 + n / 262144, 128 + (n / 4096) % 64, 128 + (n / 64) % 64,
        128 + n % 64]

def isAsciiAlnumByte (b : Nat) : Bool :=
  (48 ≤ b && b ≤ 57) || (65 ≤ b && b ≤ 90) || (97 ≤ b && b ≤ 122)

/-- Uppercase hex digit, as `percent_encoding` emits. -/
def hexUpper (n : Nat) : Char :=
  if n < 10 then Char.ofNat (48 + n) else Char.ofNat (55 + n)

/-- `utf8_percent_encode(s, NON_ALPHANUMERIC)`. -/
def percentEncodeNonAlnum (s : String) : String :=
  ⟨s.data.foldr (fun c acc =>
    (charUtf8Bytes c).foldr (fun b acc2 =>
      if isAsciiAlnumByte b then Char.ofNat b :: acc2
      else '%' :: hexUpper (b / 16) :: hexUpper (b % 16) :: acc2) acc) []⟩

/-- `GitHubClient::commit_url` (github.rs). -/
def ghCommitUrl (ri : GhRepoInfo) (hash : String) : String :=
  "https://github.com/" ++ percentEncodeNonAlnum ri.owner ++ "/" ++
    percentEncodeNonAlnum ri.repo ++ "/commit/" ++ percentEncodeNonAlnum hash

/-- `GitBackend::enrich_commit` (backend/git_backend.rs): set `commit_url`
when it is absent and the backend knows its repository; nothing else. -/
def gitEnrichCommit (repoInfo : Option GhRepoInfo) (c : CommitInfo) :
    CommitInfo :=
  match c.commit_url, repoInfo with
  | none, some ri => { c with commit_url := some (ghCommitUrl ri c.hash) }
  | _, _ => c

/-- `Backend::enrich_commit` default implementation (backend/mod.rs): the
identity. `GitHubBackend` does not override it. -/
def defaultEnrichCommit (c : CommitInfo) : CommitInfo := c

/-- Fill an optional field only when it is currently absent. -/
def fillOpt (cur new : Option String) : Option String :=
  match cur with
  | some u => some u
  | none => new

/-- Modelled from the spec: `combined_backend.rs` is declared in
backend/mod.rs but missing from the source tree. Per §4.6 the combined
variant's `enrich_commit` "always augments with API-known URLs and author
logins when available" under the stated contract — idempotent, no
overwrite of a present URL or login, and `hash`/`date`/`message`
unchanged; `api` stands for the API-side commit lookup keyed by hash. -/
def combinedEnrichCommit (api : String → Option CommitInfo) (c : CommitInfo) :
    CommitInfo :=
  match api c.hash with
  | none => c
  | some ac =>
      { c with commit_url := fillOpt c.commit_url ac.commit_url,
               author_login := fillOpt c.author_login ac.author_login,
               author_url := fillOpt c.author_url ac.author_url }

lemma fillOpt_fill (a b : Option String) : fillOpt (fillOpt a b) b = fillOpt a b := by
  cases a <;> cases b <;> rfl

/-- C8: `enrich_commit` is idempotent on every backend variant present in
the source (git-only, the trait default used by the API backend, and the
spec-modelled combined variant), never replaces a present `commit_url` or
`author_login`, and leaves `hash`, `date` and `message` untouched. -/
theorem enrich_commit_contract (ri : Option GhRepoInfo)
    (api : String → Option CommitInfo) (c : CommitInfo) :
    (gitEnrichCommit ri (gitEnrichCommit ri c) = gitEnrichCommit ri c ∧
     defaultEnrichCommit (defaultEnrichCommit c) = defaultEnrichCommit c ∧
     combinedEnrichCommit api (combinedEnrichCommit api c) =
       combinedEnrichCommit api c) ∧
    (∀ u, c.commit_url = some u →
      (gitEnrichCommit ri c).commit_url = some u ∧
      (combinedEnrichCommit api c).commit_url = some u) ∧
    ((gitEnrichCommit ri c).author_login = c.author_login ∧
     ∀ l, c.author_login = some l →
       (combinedEnrichCommit api c).author_login = some l) ∧
    ((gitEnrichCommit ri c).hash = c.hash ∧
     (gitEnrichCommit ri c).date = c.date ∧
     (gitEnrichCommit ri c).message = c.message) ∧
    ((combinedEnrichCommit api c).hash = c.hash ∧
     (combinedEnrichCommit api c).date = c.date ∧
     (combinedEnrichCommit api c).message = c.message) ∧
    defaultEnrichCommit c = c := by
  have hgit : ∀ d : CommitInfo, (gitEnrichCommit ri d).hash = d.hash ∧
      (gitEnrichCommit ri d).date = d.date ∧
      (gitEnrichCommit ri d).message = d.message ∧
      (gitEnrichCommit ri d).author_login = d.author_login := by
    intro d
    unfold gitEnrichCommit
    cases hcu : d.commit_url <;> cases ri <;> simp
  have hcomb : ∀ d : CommitInfo, (combinedEnrichCommit api d).hash = d.hash ∧
      (combinedEnrichCommit api d).date = d.date ∧
      (combinedEnrichCommit api d).message = d.message := by
    intro d
    unfold combinedEnrichCommit
    cases api d.hash <;> simp
  refine ⟨⟨?_, rfl, ?_⟩, ?_, ⟨(hgit c).2.2.2, ?_⟩,
    ⟨(hgit c).1, (hgit c).2.1, (hgit c).2.2.1⟩,
    ⟨(hcomb c).1, (hcomb c).2.1, (hcomb c).2.2⟩, rfl⟩
  · unfold gitEnrichCommit
    cases hcu : c.commit_url <;> cases ri <;> simp [hcu]
  · unfold combinedEnrichCommit
    cases hac : api c.hash with
    | none => simp [hac]
    | some ac => simp [hac, fillOpt_fill]
  · intro u hu
    constructor
    · unfold gitEnrichCommit
      rw [hu]
      cases ri <;> simp [hu]
    · unfold combinedEnrichCommit
      cases api c.hash <;> simp [hu, fillOpt]
  · intro l hl
    unfold combinedEnrichCommit
    cases api c.hash <;> simp [hl, fillOpt]

/-- Commit with both URL and login already present, to witness the
no-overwrite part of the enrichment contract. -/
def presentCommit : CommitInfo :=
  { hash := "h", short_hash := "h", message := "msg", message_lines := 1,
    commit_url := some "existing-url", author_name := "a",
    author_email := none, author_login := some "login",
    author_url := none, date := 5 }

theorem enrich_commit_contract_witness :
    (gitEnrichCommit (some ⟨"o", "r"⟩) presentCommit).commit_url =
      some "existing-url" :=
  ((enrich_commit_contract (some ⟨"o", "r"⟩) (fun _ => none)
    presentCommit).2.1 "existing-url" rfl).1

/-! ### Repository cache fetch state (repo_manager.rs / git.rs)

`FetchState` and the `find_commit_or_fetch` / `ensure_tags` walk; the git
object stores and the subprocess outcomes (`ls-remote`, `fetch`) are
environment oracles, and each step reports the subprocess calls it made. -/

/-- `FetchState` (repo_manager.rs); the `HashSet` is a list that only
grows. -/
structure FState where
  fullMetadataSynced : Bool
  fetchedCommits : List String
  tagsSynced : Bool
  deriving Repr, DecidableEq

/-- Environment of one cache entry: local/remote object stores and
subprocess outcomes. -/
structure RepoEnv where
  localCommits : String → Option CommitInfo
  remoteCommits : String → Option CommitInfo
  /-- Whether the `git ls-remote` subprocess itself runs without I/O error. -/
  lsRemoteOk : String → Bool
  /-- `ls-remote --exit-code` success: the ref exists remotely. -/
  lsRemoteFound : String → Bool
  /-- Whether `git fetch --depth=1 <url> <hash>` succeeds. -/
  fetchCommitOk : String → Bool
  /-- Whether `git fetch --tags --force <url>` succeeds. -/
  fetchTagsOk : Bool
  isLocal : Bool
  isShallow : Bool
  allowFetch : Bool
  hasRemoteUrl : Bool

/-- Subprocess invocations a cache operation can make. -/
inductive CacheEff where
  | lsRemote : String → CacheEff
  | fetchCommit : String → CacheEff
  | fetchTags : CacheEff
  deriving Repr, DecidableEq

/-- Local object lookup: commits fetched individually become visible. -/
def localLookup (env : RepoEnv) (s : FState) (h : String) :
    Option CommitInfo :=
  match env.localCommits h with
  | some c => some c
  | none => if s.fetchedCommits.contains h then env.remoteCommits h else none

/-- `RepoManager::find_commit_or_fetch` (repo_manager.rs): local lookup,
early exits on synced metadata / already-attempted hash / fetch gating,
`ls-remote` probe, depth-1 fetch, retry. Returns the result, the new
state, and the subprocess calls made. -/
def findCommitOrFetch (env : RepoEnv) (s : FState) (h : String) :
    Except WtgErr (Option CommitInfo) × FState × List CacheEff :=
  match localLookup env s h with
  | some c => (.ok (some c), s, [])
  | none =>
    if s.fullMetadataSynced then (.ok none, s, [])
    else if s.fetchedCommits.contains h then (.ok none, s, [])
    else if env.isLocal && !env.allowFetch then (.ok none, s, [])
    else if env.isShallow && !env.allowFetch then (.ok none, s, [])
    else if !env.hasRemoteUrl then (.ok none, s, [])
    else if !env.lsRemoteOk h then (.error .io, s, [.lsRemote h])
    else if !env.lsRemoteFound h then
      (.ok none, { s with fetchedCommits := h :: s.fetchedCommits },
        [.lsRemote h])
    else if !env.fetchCommitOk h then
      (.error .io, s, [.lsRemote h, .fetchCommit h])
    else
      let s2 := { s with fetchedCommits := h :: s.fetchedCommits }
      (.ok (localLookup env s2 h), s2, [.lsRemote h, .fetchCommit h])

/-- `RepoManager::ensure_tags` (repo_manager.rs). -/
def ensureTags (env : RepoEnv) (s : FState) :
    Except WtgErr Unit × FState × List CacheEff :=
  if s.tagsSynced || s.fullMetadataSynced then (.ok (), s, [])
  else if env.isLocal && !env.allowFetch then (.ok (), s, [])
  else if !env.hasRemoteUrl then (.ok (), s, [])
  else if !env.fetchTagsOk then (.error .io, s, [.fetchTags])
  else (.ok (), { s with tagsSynced := true }, [.fetchTags])

/-- The public cache operations. -/
inductive CacheOp where
  | findCommit : String → CacheOp
  | findCommitOrFetch : String → CacheOp
  | ensureTags : CacheOp

/-- One cache operation: the state after it and the subprocess calls it
made (`find_commit` is the local-only lookup and touches nothing). -/
def stepOp (env : RepoEnv) (s : FState) : CacheOp → FState × List CacheEff
  | .findCommit _ => (s, [])
  | .findCommitOrFetch h =>
      ((findCommitOrFetch env s h).2.1, (findCommitOrFetch env s h).2.2)
  | .ensureTags => ((ensureTags env s).2.1, (ensureTags env s).2.2)

/-- A sequence of cache operations: final state and accumulated calls. -/
def runOps (env : RepoEnv) : FState → List CacheOp → FState × List CacheEff
  | s, [] => (s, [])
  | s, op :: ops =>
      ((runOps env (stepOp env s op).1 ops).1,
        (stepOp env s op).2 ++ (runOps env (stepOp env s op).1 ops).2)

lemma findCommitOrFetch_state (env : RepoEnv) (s : FState) (h : String) :
    (findCommitOrFetch env s h).2.1 = s ∨
    (findCommitOrFetch env s h).2.1 =
      { s with fetchedCommits := h :: s.fetchedCommits } := by
  unfold findCommitOrFetch
  cases localLookup env s h
  · split_ifs <;> simp
  · simp

lemma ensureTags_state (env : RepoEnv) (s : FState) :
    (ensureTags env s).2.1 = s ∨
    (ensureTags env s).2.1 = { s with tagsSynced := true } := by
  unfold ensureTags
  split_ifs <;> simp

lemma stepOp_mono (env : RepoEnv) (s : FState) (op : CacheOp) :
    (s.fullMetadataSynced = true →
      (stepOp env s op).1.fullMetadataSynced = true) ∧
    (s.tagsSynced = true → (stepOp env s op).1.tagsSynced = true) ∧
    (∀ h ∈ s.fetchedCommits, h ∈ (stepOp env s op).1.fetchedCommits) := by
  cases op with
  | findCommit h => exact ⟨fun x => x, fun x => x, fun _ hx => hx⟩
  | findCommitOrFetch h =>
    rcases findCommitOrFetch_state env s h with he | he <;>
      simp only [stepOp, he] <;>
      exact ⟨fun x => x, fun x => x, fun _ hx => by
        first
        | exact hx
        | exact List.mem_cons_of_mem _ hx⟩
  | ensureTags =>
    rcases ensureTags_state env s with he | he <;>
      simp only [stepOp, he] <;>
      exact ⟨fun x => x,
        by first
           | exact fun x => x
           | exact fun _ => rfl
           | exact fun _ => trivial,
        fun _ hx => hx⟩

lemma stepOp_no_refetch (env : RepoEnv) (s : FState) (op : CacheOp)
    (h : String) (hmem : h ∈ s.fetchedCommits) :
    CacheEff.fetchCommit h ∉ (stepOp env s op).2 := by
  cases op with
  | findCommit g => simp [stepOp]
  | ensureTags =>
    simp only [stepOp]
    unfold ensureTags
    split_ifs <;> simp
  | findCommitOrFetch g =>
    simp only [stepOp]
    unfold findCommitOrFetch
    by_cases hgh : g = h
    · subst hgh
      cases localLookup env s g
      · have hc : s.fetchedCommits.contains g = true := by
          simpa using hmem
        by_cases hf : s.fullMetadataSynced = true
        · simp [hf]
        · simp [hf, hmem]
      · simp
    · cases localLookup env s g
      · split_ifs <;> simp [Ne.symm hgh]
      · simp

lemma runOps_mono (env : RepoEnv) (ops : List CacheOp) : ∀ s : FState,
    (s.fullMetadataSynced = true →
      (runOps env s ops).1.fullMetadataSynced = true) ∧
    (s.tagsSynced = true → (runOps env s ops).1.tagsSynced = true) ∧
    (∀ h ∈ s.fetchedCommits, h ∈ (runOps env s ops).1.fetchedCommits) := by
  induction ops with
  | nil => exact fun s => ⟨fun x => x, fun x => x, fun _ hx => hx⟩
  | cons op ops ih =>
    intro s
    obtain ⟨m1, m2, m3⟩ := stepOp_mono env s op
    obtain ⟨i1, i2, i3⟩ := ih (stepOp env s op).1
    exact ⟨fun x => i1 (m1 x), fun x => i2 (m2 x),
      fun h hx => i3 h (m3 h hx)⟩

lemma runOps_no_refetch (env : RepoEnv) (ops : List CacheOp) :
    ∀ s : FState, ∀ h ∈ s.fetchedCommits,
      CacheEff.fetchCommit h ∉ (runOps env s ops).2 := by
  induction ops with
  | nil => simp [runOps]
  | cons op ops ih =>
    intro s h hmem hcontra
    simp only [runOps, List.mem_append] at hcontra
    rcases hcontra with hx | hx
    · exact stepOp_no_refetch env s op h hmem hx
    · exact ih (stepOp env s op).1 h
        ((stepOp_mono env s op).2.2 h hmem) hx

lemma probe_absent_marks (env : RepoEnv) (s : FState) (h : String)
    (hok : env.lsRemoteOk h = true) (hnf : env.lsRemoteFound h = false)
    (hls : CacheEff.lsRemote h ∈ (findCommitOrFetch env s h).2.2) :
    h ∈ (findCommitOrFetch env s h).2.1.fetchedCommits ∧
    CacheEff.fetchCommit h ∉ (findCommitOrFetch env s h).2.2 := by
  unfold findCommitOrFetch at hls ⊢
  cases hloc : localLookup env s h with
  | none => split_ifs at hls ⊢ <;> simp_all
  | some c =>
    simp only [hloc] at hls
    simp at hls

/-- C9: fetch-state monotonicity: across any sequence of cache operations
`full_metadata_synced` and `tags_synced` never fall back from `true` and
`fetched_commits` only grows; moreover a `find_commit_or_fetch` whose
`ls-remote` probe reports the hash absent records the hash in
`fetched_commits` without running a `git fetch`, and once a hash is in
`fetched_commits` no later operation ever runs `git fetch` for it. -/
theorem fetch_state_monotonic (env : RepoEnv) (s : FState)
    (ops : List CacheOp) :
    (s.fullMetadataSynced = true →
      (runOps env s ops).1.fullMetadataSynced = true) ∧
    (s.tagsSynced = true → (runOps env s ops).1.tagsSynced = true) ∧
    (∀ h ∈ s.fetchedCommits, h ∈ (runOps env s ops).1.fetchedCommits) ∧
    (∀ h, env.lsRemoteOk h = true → env.lsRemoteFound h = false →
      CacheEff.lsRemote h ∈ (findCommitOrFetch env s h).2.2 →
      h ∈ (findCommitOrFetch env s h).2.1.fetchedCommits ∧
      CacheEff.fetchCommit h ∉ (findCommitOrFetch env s h).2.2) ∧
    (∀ h, h ∈ s.fetchedCommits →
      CacheEff.fetchCommit h ∉ (runOps env s ops).2) := by
  obtain ⟨m1, m2, m3⟩ := runOps_mono env ops s
  exact ⟨m1, m2, m3, fun h hok hnf hls => probe_absent_marks env s h hok hnf hls,
    fun h hmem => runOps_no_refetch env ops s h hmem⟩

/-- Cache-entry environment for scenario S5: the hash is absent both
locally and remotely, `--fetch` is enabled. -/
def demoEnv : RepoEnv :=
  { localCommits := fun _ => none,
    remoteCommits := fun _ => none,
    lsRemoteOk := fun _ => true,
    lsRemoteFound := fun _ => false,
    fetchCommitOk := fun _ => true,
    fetchTagsOk := true,
    isLocal := true,
    isShallow := false,
    allowFetch := true,
    hasRemoteUrl := true }

def fstate0 : FState :=
  { fullMetadataSynced := false, fetchedCommits := [], tagsSynced := false }

theorem fetch_state_monotonic_witness :
    "abc123d" ∈ (findCommitOrFetch demoEnv fstate0 "abc123d").2.1.fetchedCommits ∧
    CacheEff.fetchCommit "abc123d" ∉
      (findCommitOrFetch demoEnv fstate0 "abc123d").2.2 :=
  (fetch_state_monotonic demoEnv fstate0 []).2.2.2.1 "abc123d" rfl rfl
    (show CacheEff.lsRemote "abc123d" ∈
        ([CacheEff.lsRemote "abc123d"] : List CacheEff) from
      List.mem_cons_self _ _)

/-! ### Input parsing (parse_input.rs)

The WHATWG URL parser used by `parse_http_github_segments` is external
(the `url` crate); it is abstracted as a function `httpParse` returning
the collected path segments and the `is_api` flag, or the error the Rust
function reports. The git-SSH route and everything after segmentation is
pure string processing, translated directly. `PathBuf` values built by
the `blob|tree` fold are represented by the list of pushed segments. -/

/-- Rust `char::is_whitespace` (the Unicode White_Space code points). -/
def isRustWhitespace (c : Char) : Bool :=
  let n := c.toNat
  (9 ≤ n && n ≤ 13) || n = 32 || n = 133 || n = 160 || n = 5760 ||
  (8192 ≤ n && n ≤ 8202) || n = 8232 || n = 8233 || n = 8239 ||
  n = 8287 || n = 12288

/-- Rust `str::trim`. -/
def rustTrim (s : String) : String :=
  ⟨((s.data.dropWhile isRustWhitespace).reverse.dropWhile
      isRustWhitespace).reverse⟩

/-- Rust `char::is_control` (the Cc category). -/
def isControlCh (c : Char) : Bool :=
  c.toNat ≤ 31 || (127 ≤ c.toNat && c.toNat ≤ 159)

/-- `sanitize_query` (parse_input.rs): trim, reject empty, reject any
control character. -/
def sanitizeQuery (raw : String) : Except WtgErr String :=
  let trimmed := rustTrim raw
  if trimmed = "" then .error .emptyInput
  else if trimmed.data.any isControlCh then
    .error (.securityRejection
      "Input contains control characters (null bytes, newlines, etc.)")
  else .ok trimmed

/-- `Query` (parse_input.rs); `FilePath`'s `PathBuf` is the list of
segments pushed by the `blob|tree` fold. -/
inductive Query where
  | gitCommit : String → Query
  | issueOrPr : Nat → Query
  | issue : Nat → Query
  | pullReq : Nat → Query
  | filePath : List String → Query
  | unknown : String → Query
  deriving Repr, DecidableEq

/-- `ParsedInput` (parse_input.rs). -/
structure ParsedInput where
  ghRepoInfo : Option GhRepoInfo
  query : Query
  deriving Repr, DecidableEq

/-- `try_parse_input_str` (parse_input.rs). -/
def tryParseInputStr (rawInput : String) : Except WtgErr Query :=
  match sanitizeQuery rawInput with
  | .error e => .error e
  | .ok input =>
    match input.data with
    | '#' :: stripped =>
        match parseU64Str (⟨stripped⟩ : String) with
        | some n => .ok (.issueOrPr n)
        | none => .ok (.unknown input)
    | _ => .ok (.unknown input)

/-- Rust `str::split(sep)` for a one-character separator, preserving
empty pieces, written structurally on the character list. -/
def splitChAux (sep : Char) : List Char → List Char → List (List Char)
  | [], acc => [acc.reverse]
  | c :: cs, acc =>
      if c = sep then acc.reverse :: splitChAux sep cs []
      else splitChAux sep cs (c :: acc)

def splitCh (sep : Char) (s : String) : List String :=
  (splitChAux sep s.data []).map fun l => ⟨l⟩

/-- `collect_segments` (parse_input.rs): trim `/` from both ends, split
on `/`, drop empty segments. -/
def collectSegments (path : String) : List String :=
  let trimmed : String :=
    ⟨((path.data.dropWhile (· = '/')).reverse.dropWhile (· = '/')).reverse⟩
  (splitCh '/' trimmed).filter (· ≠ "")

/-- `parse_git_ssh_segments` (parse_input.rs). -/
def parseGitSshSegments (url : String) : Option (List String) :=
  let normalized := rustTrim url
  if ¬ "git@github.com:".data.isPrefixOf normalized.data then none
  else
    match (splitCh ':' normalized).get? 1 with
    | none => none
    | some path =>
        let path := ((splitCh '#' path).headD path)
        let path := ((splitCh '?' path).headD path)
        some (collectSegments path)

def isAsciiAlnumCh (c : Char) : Bool :=
  isDigitCh c || ('A' ≤ c && c ≤ 'Z') || isLowerCh c

/-- `sanitize_owner_repo_segment` (parse_input.rs). -/
def sanitizeOwnerRepoSegment (raw : String) : Option String :=
  let trimmed := rustTrim raw
  if trimmed = "" then none
  else if trimmed.data.all
      (fun c => isAsciiAlnumCh c || c = '-' || c = '_' || c = '.') then
    some trimmed
  else none

/-- Rust `str::trim_end_matches(".git")`: strip every trailing `.git`. -/
def trimEndGitAux : Nat → String → String
  | 0, s => s
  | n + 1, s =>
      if ".git".data.reverse.isPrefixOf s.data.reverse then
        trimEndGitAux n ⟨s.data.take (s.data.length - 4)⟩
      else s

def trimEndGit (s : String) : String := trimEndGitAux s.length s

/-- `split_url_segments` (parse_input.rs). -/
def splitUrlSegments (segments : List String) (isApi : Bool) :
    Option (GhRepoInfo × List String) :=
  let minSegments := if isApi then 3 else 2
  if segments.length < minSegments then none
  else
    let ownerIdx := if isApi then 1 else 0
    match sanitizeOwnerRepoSegment (segments.getD ownerIdx "") with
    | none => none
    | some owner =>
      match sanitizeOwnerRepoSegment
          (trimEndGit (segments.getD (ownerIdx + 1) "")) with
      | none => none
      | some repo =>
          some (⟨owner, repo⟩, segments.drop (ownerIdx + 2))

/-- `check_path` (parse_input.rs) on the pushed-segment representation:
all-empty pushes leave the path empty; no segment contains `/`, so the
absolute check watches a leading `/`; a `..` segment is a parent
component. -/
def checkPath (segs : List String) : Except WtgErr Unit :=
  if segs.all (· = "") then .error .emptyInput
  else if (match segs.find? (· ≠ "") with
           | some s => "/".data.isPrefixOf s.data
           | none => false) then
    .error (.securityRejection "An absolute path snuck in")
  else if (segs.filter (· ≠ "")).contains ".." then
    .error (.securityRejection "Some fishy `..` in the path")
  else .ok ()

/-- `parsed_input_from_segments` (parse_input.rs). The snapshot mixes
`Option` and `Result` exits; every `None` exit is rendered as
`MalformedGitHubUrl`, which is what the unit tests assert for the
traversal rejections. The `blob|tree` fold sanitizes only `segments[2..]`
and replaces a failing segment with the empty string
(`unwrap_or_default`); the ref segment `segments[1]` is never
sanitized. -/
def parsedInputFromSegments (segments : List String) (isApi : Bool) :
    Except WtgErr ParsedInput :=
  match splitUrlSegments segments isApi with
  | none => .error (.malformedGitHubUrl "Where is the repo, where is the owner?")
  | some (repoInfo, segs) =>
    match segs.head? with
    | none => .error (.malformedGitHubUrl "No route found in GitHub URL")
    | some route =>
      if route = "commit" then
        match segs.get? 1 with
        | none => .error (.malformedGitHubUrl "missing commit hash")
        | some hseg =>
          match sanitizeQuery hseg with
          | .error e => .error e
          | .ok hash => .ok ⟨some repoInfo, .gitCommit hash⟩
      else if route = "issues" then
        match segs.get? 1 with
        | none => .error (.malformedGitHubUrl "missing issue number")
        | some nseg =>
          match parseU64Str nseg with
          | none => .error (.malformedGitHubUrl "bad issue number")
          | some n => .ok ⟨some repoInfo, .issue n⟩
      else if route = "pull" then
        match segs.get? 1 with
        | none => .error (.malformedGitHubUrl "missing pull number")
        | some nseg =>
          match parseU64Str nseg with
          | none => .error (.malformedGitHubUrl "bad pull number")
          | some n => .ok ⟨some repoInfo, .pullReq n⟩
      else if (route = "blob" ∨ route = "tree") ∧ 2 ≤ segs.length then
        let path := (segs.drop 2).map fun s =>
          ((sanitizeQuery s).toOption.getD "")
        match checkPath path with
        | .error _ => .error (.malformedGitHubUrl "unsafe file path")
        | .ok _ => .ok ⟨some repoInfo, .filePath path⟩
      else .error (.malformedGitHubUrl "unknown route")

/-- `try_parse_input_from_github_url` (parse_input.rs): SSH format first,
then the HTTP(S) route via the external URL parser. -/
def tryParseInputFromGithubUrl
    (httpParse : String → Except WtgErr (List String × Bool))
    (url : String) : Except WtgErr ParsedInput :=
  match parseGitSshSegments url with
  | some segments => parsedInputFromSegments segments false
  | none =>
    match httpParse url with
    | .ok (segments, isApi) => parsedInputFromSegments segments isApi
    | .error e => .error e

/-- Rust `char::to_ascii_lowercase` over a string. -/
def asciiLower (s : String) : String :=
  ⟨s.data.map fun c =>
    if 'A' ≤ c ∧ c ≤ 'Z' then Char.ofNat (c.toNat + 32) else c⟩

def containsSubstr (s pat : String) : Bool :=
  s.data.tails.any fun t => pat.data.isPrefixOf t

/-- `is_url_like` (parse_input.rs). -/
def isUrlLike (input : String) : Bool :=
  let trimmed := asciiLower (rustTrim input)
  trimmed.startsWith "http://" || trimmed.startsWith "https://" ||
  trimmed.startsWith "//" || trimmed.startsWith "git@" ||
  containsSubstr trimmed "://"

def ownerRepoFromSegments (segments : List String) (isApi : Bool) :
    Option GhRepoInfo :=
  (splitUrlSegments segments isApi).map (·.1)

/-- The plain `owner/repo` fallback inside `parse_github_repo_url`. -/
def simpleOwnerRepo (trimmed : String) : Option GhRepoInfo :=
  let parts := splitCh '/' trimmed
  if parts.length = 2 then
    match sanitizeOwnerRepoSegment (parts.getD 0 ""),
        sanitizeOwnerRepoSegment (trimEndGit (parts.getD 1 "")) with
    | some owner, some repo => some ⟨owner, repo⟩
    | _, _ => none
  else none

/-- `parse_github_repo_url` (parse_input.rs). -/
def parseGithubRepoUrl
    (httpParse : String → Except WtgErr (List String × Bool))
    (url : String) : Option GhRepoInfo :=
  let trimmed := rustTrim url
  if trimmed = "" then none
  else
    match parseGitSshSegments trimmed with
    | some segments => ownerRepoFromSegments segments false
    | none =>
      match httpParse trimmed with
      | .ok (segments, isApi) =>
          match ownerRepoFromSegments segments isApi with
          | some ownerRepo => some ownerRepo
          | none => simpleOwnerRepo trimmed
      | .error _ => simpleOwnerRepo trimmed

/-- `try_parse_input` (parse_input.rs): explicit repo flag, the empty
shortcut, the GitHub-URL attempt, and the URL-like error propagation
(the source re-runs the URL parse and takes `unwrap_err()`). -/
def tryParseInput (httpParse : String → Except WtgErr (List String × Bool))
    (rawInput : String) (repoUrl : Option String) :
    Except WtgErr ParsedInput :=
  let rawInput := rustTrim rawInput
  match repoUrl with
  | some repoUrl =>
      match parseGithubRepoUrl httpParse repoUrl with
      | none => .error (.malformedGitHubUrl repoUrl)
      | some repoInfo =>
          match tryParseInputStr rawInput with
          | .ok query => .ok ⟨some repoInfo, query⟩
          | .error e => .error e
  | none =>
    if rawInput = "" then
      match tryParseInputStr rawInput with
      | .ok q => .ok ⟨none, q⟩
      | .error e => .error e
    else
      match tryParseInputFromGithubUrl httpParse rawInput with
      | .ok parsed => .ok parsed
      | .error (.notGitHubUrl s) =>
          if isUrlLike rawInput then
            match tryParseInputFromGithubUrl httpParse rawInput with
            | .error e2 => .error e2
            | .ok _ => .error (.notGitHubUrl s)
          else
            match tryParseInputStr rawInput with
            | .ok q => .ok ⟨none, q⟩
            | .error e => .error e
      | .error (.malformedGitHubUrl s) =>
          if isUrlLike rawInput then
            match tryParseInputFromGithubUrl httpParse rawInput with
            | .error e2 => .error e2
            | .ok _ => .error (.malformedGitHubUrl s)
          else
            match tryParseInputStr rawInput with
            | .ok q => .ok ⟨none, q⟩
            | .error e => .error e
      | .error e => .error e

set_option maxRecDepth 16384 in
/-- C5: an input whose trimmed token contains an interior TAB is still
classified into a `Query` when it takes the git-SSH `blob` route — the
ref segment is never sanitized and is discarded — even though
`sanitize_query` itself rejects the very same token; the empty-input part
of the sanitization contract does hold. This holds for every behaviour of
the external URL parser, which this input never reaches. -/
theorem try_parse_input_control_char_classified
    (httpParse : String → Except WtgErr (List String × Bool)) :
    tryParseInput httpParse "git@github.com:owner/repo/blob/ma\tin/file.rs"
        none =
      .ok ⟨some ⟨"owner", "repo"⟩, .filePath ["file.rs"]⟩ ∧
    sanitizeQuery "git@github.com:owner/repo/blob/ma\tin/file.rs" =
      .error (.securityRejection
        "Input contains control characters (null bytes, newlines, etc.)") ∧
    tryParseInput httpParse "  \t  " none = .error .emptyInput := by
  exact ⟨rfl, rfl, rfl⟩

end Wtg
